import Mathlib

/-!
Verification of the IRust edit buffer, classified output model and
cursor/scroll engine, shallowly embedded from
`src/irust/buffer.rs` and `src/irust/printer.rs`.

Strings are modelled as `List Char`; `usize` indices are `Nat`.
Rust operations that can panic (`Vec::insert`, `Vec::remove` with an
out-of-bounds index) are modelled with `Option`, `none` standing for the
panic.
-/

set_option autoImplicit false

universe u

/-- Model of `Vec::insert(i, a)`: shifts everything at and after `i` to
the right.  Rust panics when `i > len`; callers guard with that bound, so
the out-of-range equation here is junk that is never reached under the
guard. -/
def vecInsert {α : Type u} : List α → Nat → α → List α
  | l, 0, a => a :: l
  | [], _ + 1, a => [a]
  | x :: xs, n + 1, a => x :: vecInsert xs n a

/-- Model of `Vec::remove(i)` on the list part: drops the element at `i`.
Rust panics when `i >= len`; callers guard with that bound. -/
def vecRemove {α : Type u} : List α → Nat → List α
  | [], _ => []
  | _ :: xs, 0 => xs
  | x :: xs, n + 1 => x :: vecRemove xs n

/-- `struct Buffer` from `buffer.rs`. -/
structure Buffer where
  buffer : List Char
  buffer_pos : Nat
  max_line_char : Nat
  deriving DecidableEq, Repr

namespace Buffer

/-- `Buffer::len` -/
def len (b : Buffer) : Nat := b.buffer.length

/-- `Buffer::is_empty` -/
def is_empty (b : Buffer) : Bool := b.len == 0

/-- `Buffer::move_forward`: unconditional increment, no upper bound check. -/
def move_forward (b : Buffer) : Buffer :=
  { b with buffer_pos := b.buffer_pos + 1 }

/-- `Buffer::move_backward`: decrement, saturating at 0. -/
def move_backward (b : Buffer) : Buffer :=
  if b.buffer_pos ≠ 0 then { b with buffer_pos := b.buffer_pos - 1 } else b

/-- `Buffer::insert`: `self.buffer.insert(self.buffer_pos, c)` followed by
`move_forward`.  `Vec::insert` panics when `buffer_pos > len`, modelled by
`none`. -/
def insert (b : Buffer) (c : Char) : Option Buffer :=
  if b.buffer_pos ≤ b.buffer.length then
    some ({ b with buffer := vecInsert b.buffer b.buffer_pos c }).move_forward
  else
    none

/-- `Buffer::insert_str`: `s.chars().for_each(|c| self.insert(c))`. -/
def insert_str (b : Buffer) (s : List Char) : Option Buffer :=
  s.foldlM (fun b c => b.insert c) b

/-- `Buffer::set_buffer_pos`: stores the given position unchecked. -/
def set_buffer_pos (b : Buffer) (pos : Nat) : Buffer :=
  { b with buffer_pos := pos }

/-- `Buffer::remove_current_char`: when the buffer is non-empty it calls
`self.buffer.remove(self.buffer_pos)` (which panics when
`buffer_pos >= len`, modelled by the outer `none`) and returns the removed
character; when empty it returns `None` untouched. -/
def remove_current_char (b : Buffer) : Option (Option Char × Buffer) :=
  if !b.is_empty then
    match b.buffer.get? b.buffer_pos with
    | some ch =>
        some (some ch, { b with buffer := vecRemove b.buffer b.buffer_pos })
    | none => none
  else
    some (none, b)

/-- `Buffer::clear` -/
def clear (b : Buffer) : Buffer :=
  { b with buffer := [], buffer_pos := 0 }

/-- `Buffer::goto_start` -/
def goto_start (b : Buffer) : Buffer :=
  { b with buffer_pos := 0 }

/-- `Buffer::goto_end` -/
def goto_end (b : Buffer) : Buffer :=
  { b with buffer_pos := b.buffer.length }

/-- `Buffer::from_str` -/
def from_str (s : List Char) (max_line_char : Nat) : Buffer :=
  { buffer := s, buffer_pos := 0, max_line_char := max_line_char }

/-- The spec's Edit Buffer invariant `0 <= cursor <= len(content)`
(the lower bound is inherent to `Nat`). -/
def Inv (b : Buffer) : Prop := b.buffer_pos ≤ b.buffer.length

instance (b : Buffer) : Decidable b.Inv := by
  unfold Inv; infer_instance

end Buffer


/-! ## Coordinate translation (`Buffer::buffer_pos_to_relative_cursor_pos`) -/

/-- One iteration of the loop in `buffer_pos_to_relative_cursor_pos`:
`match self.buffer.get(i) { Some('\n') => x = 0, _ => x += 1 }` followed by
`if x == self.max_line_char { x = 0; y += 1 }`. -/
def coordStep (max : Nat) (xy : Nat × Nat) (oc : Option Char) : Nat × Nat :=
  let x :=
    match oc with
    | some c => if c = '\n' then 0 else xy.1 + 1
    | none => xy.1 + 1
  if x = max then (0, xy.2 + 1) else (x, xy.2)

namespace Buffer

/-- `Buffer::buffer_pos_to_relative_cursor_pos`: `y` starts as the number
of newline characters among the first `buffer_pos` characters, then the
loop over `0..buffer_pos` threads `(x, y)` through `coordStep` with the
(optional) character at each index. -/
def buffer_pos_to_relative_cursor_pos (b : Buffer) (buffer_pos : Nat) : Nat × Nat :=
  let y := ((b.buffer.take buffer_pos).filter (fun c => c = '\n')).length
  ((List.range buffer_pos).map (fun i => b.buffer.get? i)).foldl
    (coordStep b.max_line_char) (0, y)

/-- `Buffer::last_buffer_pos_to_relative_cursor_pos` -/
def last_buffer_pos_to_relative_cursor_pos (b : Buffer) : Nat × Nat :=
  b.buffer_pos_to_relative_cursor_pos b.buffer.length

end Buffer

/-- One character step of the walk exactly as the spec words it: `col`
increments per non-newline character and resets to 0 on a newline (which
also increments `row`); additionally, whenever `col` reaches `wrap_width`,
it is reset to 0 and `row` is incremented. -/
def specStep (wrap_width : Nat) (xy : Nat × Nat) (c : Char) : Nat × Nat :=
  let xy2 := if c = '\n' then (0, xy.2 + 1) else (xy.1 + 1, xy.2)
  if xy2.1 = wrap_width then (0, xy2.2 + 1) else xy2

/-- `position_to_coord(p)` as the spec words it: walk the characters
`0..p` with `specStep`, starting from `(0, 0)`. -/
def position_to_coord_spec (content : List Char) (wrap_width : Nat) (p : Nat) : Nat × Nat :=
  (content.take p).foldl (specStep wrap_width) (0, 0)

/-! ## Classified output model (`printer.rs`) -/

/-- Model of `crossterm::Color` (only the identity of colors matters). -/
inductive Color where
  | White
  | Yellow
  | Other (n : Nat)
  deriving DecidableEq, Repr

/-- `enum PrinterItemType` from `printer.rs`. -/
inductive PrinterItemType where
  | Eval
  | Ok
  | _IRust
  | Warn
  | Out
  | Shell
  | Err
  | NewLine
  | Custom (c : Option Color)
  deriving DecidableEq, Repr

/-- `struct PrinterItem` from `printer.rs`. -/
structure PrinterItem where
  string : List Char
  string_type : PrinterItemType
  deriving DecidableEq, Repr

/-- `PrinterItem::default()`: empty string tagged `NewLine`. -/
def PrinterItem.default : PrinterItem :=
  { string := [], string_type := PrinterItemType.NewLine }

/-- `struct Printer` from `printer.rs`: a render batch. -/
structure Printer where
  items : List PrinterItem
  deriving DecidableEq, Repr

namespace Printer

/-- `Printer::default()` -/
def default : Printer := { items := [] }

/-- `Printer::push` -/
def push (p : Printer) (output : PrinterItem) : Printer :=
  { items := p.items ++ [output] }

/-- `Printer::pop` (`Vec::pop`): drops the last item, no-op on empty. -/
def pop (p : Printer) : Printer :=
  { items := p.items.dropLast }

/-- `Printer::append(&mut other)`: `Vec::append` moves all of `other`'s
items onto the end of `self`, leaving `other` empty.  Both post-states are
returned. -/
def append (p other : Printer) : Printer × Printer :=
  ({ items := p.items ++ other.items }, { items := [] })

end Printer

/-! ### Rust `str::lines` and `Printer::from_string` -/

/-- `str::split('\n')` on a character list: the list of segments between
newline characters (never empty; `[[]]` for the empty string). -/
def splitNl : List Char → List (List Char)
  | [] => [[]]
  | c :: cs =>
    if c = '\n' then [] :: splitNl cs
    else
      match splitNl cs with
      | [] => [[c]]
      | s :: ss => (c :: s) :: ss

/-- Joining segments with a single newline between them (the claim's
"joined with newline" reconstruction). -/
def joinNl : List (List Char) → List Char
  | [] => []
  | [s] => s
  | s :: ss => s ++ '\n' :: joinNl ss

/-- Strip one trailing carriage return, as `str::lines` does on every
newline-terminated line. -/
def stripCr (l : List Char) : List Char :=
  if l.getLast? = some '\r' then l.dropLast else l

/-- Apply `stripCr` to every segment except the last (the last segment is
the only one not terminated by a newline). -/
def stripInit : List (List Char) → List (List Char)
  | [] => []
  | [s] => [s]
  | s :: ss => stripCr s :: stripInit ss

/-- `str::ends_with('\n')` -/
def endsWithNl (s : List Char) : Bool := s.getLast? = some '\n'

/-- Rust `str::lines()`: split on `'\n'`, strip one `'\r'` from each
newline-terminated segment, and drop the final segment when it is empty
(i.e. when the string is empty or ends in a newline). -/
def rustLines (s : List Char) : List (List Char) :=
  let ss := stripInit (splitNl s)
  if ss.getLast? = some [] then ss.dropLast else ss

/-- `Printer::from_string`: push a `Custom(None)` item plus a `NewLine`
item per line of the string, then pop the last item when the string does
not end in a newline. -/
def Printer.from_string (s : List Char) : Printer :=
  let p : Printer :=
    { items :=
        (rustLines s).flatMap
          (fun l => [{ string := l, string_type := PrinterItemType.Custom none },
                     PrinterItem.default]) }
  if !endsWithNl s then p.pop else p

/-- The claim's reconstruction: the strings of the non-`NewLine` items of
a batch, joined with a newline between them. -/
def reconstruct (p : Printer) : List Char :=
  joinNl (p.items.filterMap
    (fun it =>
      match it.string_type with
      | PrinterItemType.NewLine => none
      | _ => some it.string))


/-! ## Cursor & scroll engine (`IRust::print_output`,
`IRust::scroll_if_needed_for_output` in `printer.rs`) -/

/-- Modelled from the spec: `StringTools::is_multiline` (from
`crate::utils`, whose source is not part of this repository slice) — the
text "contains embedded newlines". -/
def is_multiline (s : List Char) : Bool := s.contains '\n'

/-- Modelled from the spec: `StringTools::new_lines_count` (from
`crate::utils`, not in this repository slice) — the "embedded-newline
count" of a string. -/
def new_lines_count (s : List Char) : Nat :=
  (s.filter (fun c => c = '\n')).length

/-- Trace of the multiline branch of `IRust::print_output` on one text
item: the fragments written to the raw terminal, and the tracked physical
row (`cursor.pos.current_pos.1`). -/
structure MultilineTrace where
  writes : List (List Char)
  row : Nat
  deriving DecidableEq, Repr

/-- The `output.string.split('\n').for_each(..)` loop of
`IRust::print_output`: per split segment, write the segment, write
`"\r\n"`, and increment the tracked physical row by one. -/
def print_output_multiline (row : Nat) (s : List Char) : MultilineTrace :=
  (splitNl s).foldl
    (fun tr line =>
      { writes := tr.writes ++ [line, '\r' :: '\n' :: []], row := tr.row + 1 })
    { writes := [], row := row }

/-- The slice of cursor state `IRust::scroll_if_needed_for_output`
reads and writes: the tracked physical row `pos.current_pos.1` and the
viewport height `bound.height`. -/
structure CursorState where
  current_row : Nat
  height : Nat
  deriving DecidableEq, Repr

/-- Modelled from the spec: `Cursor::screen_height_overflow_by_new_lines`
(the cursor module is not in this repository slice) — the minimal
nonnegative amount by which `current_row + new_lines` exceeds the last
visible row `height - 1` (§4.3: "whenever projected content rows exceed
`bound.height - 1`"; natural subtraction saturates at zero). -/
def screen_height_overflow_by_new_lines (cur : CursorState) (new_lines : Nat) : Nat :=
  (cur.current_row + new_lines) - (cur.height - 1)

/-- Result of `IRust::scroll_if_needed_for_output`: the sequence of
`raw_terminal.scroll_up(n)` calls issued and the cursor state after. -/
structure ScrollTrace where
  scrolls : List Nat
  cursor : CursorState
  deriving DecidableEq, Repr

/-- `IRust::scroll_if_needed_for_output`: count the newlines of the
written fragment; when the resulting overflow is positive, issue
`scroll_up(1)` once and set the tracked row to `bound.height - 1`,
otherwise do nothing. -/
def scroll_if_needed_for_output (cur : CursorState) (output : List Char) : ScrollTrace :=
  let new_lines := new_lines_count output
  let height_overflow := screen_height_overflow_by_new_lines cur new_lines
  if height_overflow > 0 then
    { scrolls := [1], cursor := { cur with current_row := cur.height - 1 } }
  else
    { scrolls := [], cursor := cur }


/-- The post-condition of claim C1 at a single starting state: every Edit
Buffer operation keeps `0 <= cursor <= len(content)`, except that
`move_forward` needs `cursor < len` and `set_buffer_pos` needs the stored
position to be in range, and `remove_current_char` preserves it whenever
it produces a state at all. -/
def C1Post (b : Buffer) (c : Char) (s : List Char) (p : Nat) : Prop :=
  (∃ b1, b.insert c = some b1 ∧ b1.Inv) ∧
  (∃ b2, b.insert_str s = some b2 ∧ b2.Inv) ∧
  (∀ oc b3, b.remove_current_char = some (oc, b3) → b3.Inv) ∧
  (b.buffer_pos < b.buffer.length → b.move_forward.Inv) ∧
  b.move_backward.Inv ∧
  b.goto_start.Inv ∧
  b.goto_end.Inv ∧
  b.clear.Inv ∧
  (p ≤ b.buffer.length → (b.set_buffer_pos p).Inv)

/-- The pair of items `from_string` pushes per line: the text item tagged
`Custom(None)` and the `NewLine` item from `add_new_line(1)`. -/
def fromStringItem (l : List Char) : List PrinterItem :=
  [{ string := l, string_type := PrinterItemType.Custom none }, PrinterItem.default]

/-- The text selector of the claim's reconstruction: the string of a
non-`NewLine` item, nothing for a `NewLine` item. -/
def printedText (it : PrinterItem) : Option (List Char) :=
  match it.string_type with
  | PrinterItemType.NewLine => none
  | _ => some it.string

section VecLemmas

variable {α : Type u}

theorem length_vecInsert (l : List α) (n : Nat) (a : α) (h : n ≤ l.length) :
    (vecInsert l n a).length = l.length + 1 := by
  induction l generalizing n with
  | nil =>
    have hn : n = 0 := by simpa using h
    subst hn
    rfl
  | cons x xs ih =>
    cases n with
    | zero => rfl
    | succ m =>
      simp only [vecInsert, List.length_cons]
      rw [ih m (by simpa using h)]

theorem get?_vecInsert_self (l : List α) (n : Nat) (a : α) (h : n ≤ l.length) :
    (vecInsert l n a).get? n = some a := by
  induction l generalizing n with
  | nil =>
    have hn : n = 0 := by simpa using h
    subst hn
    rfl
  | cons x xs ih =>
    cases n with
    | zero => rfl
    | succ m =>
      simpa [vecInsert] using ih m (by simpa using h)

theorem vecRemove_vecInsert (l : List α) (n : Nat) (a : α) (h : n ≤ l.length) :
    vecRemove (vecInsert l n a) n = l := by
  induction l generalizing n with
  | nil =>
    have hn : n = 0 := by simpa using h
    subst hn
    rfl
  | cons x xs ih =>
    cases n with
    | zero => rfl
    | succ m =>
      simp only [vecInsert, vecRemove]
      rw [ih m (by simpa using h)]

theorem length_vecRemove (l : List α) (n : Nat) (h : n < l.length) :
    (vecRemove l n).length = l.length - 1 := by
  induction l generalizing n with
  | nil => simp at h
  | cons x xs ih =>
    cases n with
    | zero => simp [vecRemove]
    | succ m =>
      have hm : m < xs.length := by simpa using h
      simp only [vecRemove, List.length_cons]
      rw [ih m hm]
      omega

end VecLemmas

/-! ## Buffer invariant lemmas -/

theorem Buffer.insert_inv (b : Buffer) (c : Char) (h : b.Inv) :
    ∃ b1, b.insert c = some b1 ∧ b1.Inv := by
  have hle : b.buffer_pos ≤ b.buffer.length := h
  refine ⟨({ b with buffer := vecInsert b.buffer b.buffer_pos c }).move_forward, ?_, ?_⟩
  · simp [Buffer.insert, hle]
  · simp only [Buffer.Inv, Buffer.move_forward]
    rw [length_vecInsert _ _ _ hle]
    omega

theorem Buffer.insert_str_inv (b : Buffer) (s : List Char) (h : b.Inv) :
    ∃ b2, b.insert_str s = some b2 ∧ b2.Inv := by
  induction s generalizing b with
  | nil => exact ⟨b, rfl, h⟩
  | cons c cs ih =>
    obtain ⟨b1, hb1, hinv1⟩ := b.insert_inv c h
    obtain ⟨b2, hb2, hinv2⟩ := ih b1 hinv1
    refine ⟨b2, ?_, hinv2⟩
    simp only [Buffer.insert_str, List.foldlM_cons, hb1, Option.bind_eq_bind,
      Option.some_bind]
    exact hb2

theorem Buffer.remove_current_char_inv (b : Buffer) (oc : Option Char) (b3 : Buffer)
    (h : b.Inv) (hr : b.remove_current_char = some (oc, b3)) : b3.Inv := by
  have hle : b.buffer_pos ≤ b.buffer.length := h
  unfold Buffer.remove_current_char at hr
  by_cases he : b.is_empty
  · simp only [he, Bool.not_true, Bool.false_eq_true, if_false] at hr
    rw [Option.some.injEq, Prod.mk.injEq] at hr
    obtain ⟨-, h2⟩ := hr
    subst h2
    exact h
  · simp only [he, Bool.not_false, if_true] at hr
    cases hg : b.buffer.get? b.buffer_pos with
    | none => rw [hg] at hr; exact absurd hr (by simp)
    | some ch =>
      rw [hg] at hr
      rw [Option.some.injEq, Prod.mk.injEq] at hr
      obtain ⟨-, h2⟩ := hr
      subst h2
      have hlt : b.buffer_pos < b.buffer.length := by
        by_contra hge
        push_neg at hge
        rw [List.get?_eq_none.mpr hge] at hg
        cases hg
      simp only [Buffer.Inv]
      rw [length_vecRemove _ _ hlt]
      omega

/-- Claim C1, counterexample to the claim as stated: `move_forward` from
the valid state (empty content, cursor 0) leaves the cursor at 1, beyond
the buffer length — so not every operation preserves the invariant. -/
theorem c1_counterexample :
    Buffer.Inv { buffer := [], buffer_pos := 0, max_line_char := 1 } ∧
    ¬ (Buffer.move_forward { buffer := [], buffer_pos := 0, max_line_char := 1 }).Inv := by
  decide

/-- Claim C1 (amended): from a state with `0 <= cursor <= len(content)`,
`insert`, `insert_sequence`, `move_backward`, `goto_start`, `goto_end` and
`clear` always re-establish `0 <= cursor <= len(content)`;
`remove_current` re-establishes it whenever it returns a state;
`move_forward` re-establishes it exactly when `cursor < len(content)`
(at `cursor = len` it unconditionally increments past the end); and
`set position` re-establishes it exactly when the requested position is
at most `len(content)` (it stores any position unchecked). -/
theorem c1_buffer_ops_keep_cursor_in_range (b : Buffer) (c : Char) (s : List Char)
    (p : Nat) (h : b.Inv) : C1Post b c s p := by
  have hle : b.buffer_pos ≤ b.buffer.length := h
  refine ⟨b.insert_inv c h, b.insert_str_inv s h,
    fun oc b3 hr => b.remove_current_char_inv oc b3 h hr, ?_, ?_, ?_, ?_, ?_, ?_⟩
  · intro hlt
    simpa [Buffer.move_forward, Buffer.Inv] using hlt
  · simp only [Buffer.move_backward, Buffer.Inv]
    split
    · show b.buffer_pos - 1 ≤ b.buffer.length
      omega
    · exact hle
  · simp [Buffer.goto_start, Buffer.Inv]
  · simp [Buffer.goto_end, Buffer.Inv]
  · simp [Buffer.clear, Buffer.Inv]
  · intro hp
    simpa [Buffer.set_buffer_pos, Buffer.Inv] using hp

/-- Witness for the amended claim C1 at a concrete valid state. -/
theorem c1_buffer_ops_keep_cursor_in_range_witness :
    Buffer.Inv { buffer := ['a', 'b'], buffer_pos := 1, max_line_char := 5 } ∧
    C1Post { buffer := ['a', 'b'], buffer_pos := 1, max_line_char := 5 } 'x' ['y', 'z'] 2 :=
  ⟨by decide,
   c1_buffer_ops_keep_cursor_in_range
     { buffer := ['a', 'b'], buffer_pos := 1, max_line_char := 5 } 'x' ['y', 'z'] 2
     (by decide)⟩

/-- Claim C2: on the valid state with content `['a']` and cursor `1`
(cursor at the end of a non-empty buffer, so no character exists at the
cursor index), `remove_current_char` is not a `None`-returning no-op: it
reaches `Vec::remove(1)` on a length-1 vector, which panics (modelled by
`none`).  The claim (and the spec) say this case returns nothing without
failing; the guard `!self.is_empty()` checks emptiness instead of
`buffer_pos < len`, contradicting the graceful `Option` contract. -/
theorem c2_remove_current_at_end_panics :
    Buffer.Inv { buffer := ['a'], buffer_pos := 1, max_line_char := 5 } ∧
    Buffer.remove_current_char { buffer := ['a'], buffer_pos := 1, max_line_char := 5 }
      = none := by
  decide

/-- Claim C9: from any state satisfying `0 <= cursor <= len(content)`,
`insert c` succeeds, and following it with `move_backward` and then
`remove_current` returns exactly `c` and restores the original content
and cursor (the whole original buffer value). -/
theorem c9_insert_backward_remove_roundtrip (b : Buffer) (c : Char) (h : b.Inv) :
    ∃ b1, b.insert c = some b1 ∧
      b1.move_backward.remove_current_char = some (some c, b) := by
  obtain ⟨l, pos, m⟩ := b
  have hle : pos ≤ l.length := h
  refine ⟨({ buffer := vecInsert l pos c, buffer_pos := pos, max_line_char := m
             : Buffer }).move_forward, ?_, ?_⟩
  · simp [Buffer.insert, hle]
  · have hlen : (vecInsert l pos c).length = l.length + 1 := length_vecInsert _ _ _ hle
    have hmb : ({ buffer := vecInsert l pos c, buffer_pos := pos, max_line_char := m
        : Buffer }).move_forward.move_backward
        = { buffer := vecInsert l pos c, buffer_pos := pos, max_line_char := m } := by
      simp [Buffer.move_forward, Buffer.move_backward]
    rw [hmb]
    have hne : ¬ ({ buffer := vecInsert l pos c, buffer_pos := pos, max_line_char := m
        : Buffer }).is_empty := by
      simp [Buffer.is_empty, Buffer.len, hlen]
    have hg : (vecInsert l pos c).get? pos = some c := get?_vecInsert_self _ _ _ hle
    simp only [Buffer.remove_current_char, hne, Bool.not_false, if_true, hg]
    rw [vecRemove_vecInsert _ _ _ hle]

/-- Witness for claim C9 at a concrete valid state. -/
theorem c9_insert_backward_remove_roundtrip_witness :
    Buffer.Inv { buffer := ['a', 'b'], buffer_pos := 1, max_line_char := 4 } ∧
    (∃ b1, Buffer.insert { buffer := ['a', 'b'], buffer_pos := 1, max_line_char := 4 } 'x'
        = some b1 ∧
      b1.move_backward.remove_current_char
        = some (some 'x', { buffer := ['a', 'b'], buffer_pos := 1, max_line_char := 4 })) :=
  ⟨by decide,
   c9_insert_backward_remove_roundtrip
     { buffer := ['a', 'b'], buffer_pos := 1, max_line_char := 4 } 'x' (by decide)⟩

/-- Claim C10: `Printer::append` leaves the first batch holding its own
items followed by all of the second batch's items in order, and leaves
the second batch empty (its items are moved out). -/
theorem c10_printer_append (a b : Printer) :
    ((a.append b).1.items = a.items ++ b.items) ∧ ((a.append b).2.items = []) :=
  ⟨rfl, rfl⟩

/-! ## Coordinate translation lemmas -/

theorem foldl_coordStep_shift (max : Nat) (ocs : List (Option Char)) (x y k : Nat) :
    ocs.foldl (coordStep max) (x, y + k) =
      ((ocs.foldl (coordStep max) (x, y)).1,
       (ocs.foldl (coordStep max) (x, y)).2 + k) := by
  induction ocs generalizing x y with
  | nil => simp
  | cons oc rest ih =>
    simp only [List.foldl_cons]
    have hstep : coordStep max (x, y + k) oc
        = ((coordStep max (x, y) oc).1, (coordStep max (x, y) oc).2 + k) := by
      rcases oc with _ | c
      · simp only [coordStep]
        split <;> simp_arith
      · simp only [coordStep]
        by_cases hc : c = '\n' <;> simp only [hc, if_true, if_false, reduceIte] <;>
          split <;> simp_arith
    rw [hstep]
    simpa using ih (coordStep max (x, y) oc).1 (coordStep max (x, y) oc).2

theorem foldl_specStep_eq_coordStep (w : Nat) (hw : 1 ≤ w) (cs : List Char) (x y : Nat) :
    cs.foldl (specStep w) (x, y) =
      (((cs.map some).foldl (coordStep w) (x, y)).1,
       ((cs.map some).foldl (coordStep w) (x, y)).2 + new_lines_count cs) := by
  induction cs generalizing x y with
  | nil => simp [new_lines_count]
  | cons c rest ih =>
    simp only [List.map_cons, List.foldl_cons]
    by_cases hc : c = '\n'
    · subst hc
      have h0w : ¬ ((0 : Nat) = w) := by omega
      have h1 : specStep w (x, y) '\n' = (0, y + 1) := by
        simp [specStep, h0w]
      have h2 : coordStep w (x, y) (some '\n') = (0, y) := by
        simp [coordStep, h0w]
      rw [h1, h2, ih 0 (y + 1)]
      have hshift := foldl_coordStep_shift w (rest.map some) 0 y 1
      rw [hshift]
      have hcnt : new_lines_count ('\n' :: rest) = new_lines_count rest + 1 := by
        simp [new_lines_count, List.filter]
      rw [hcnt]
      exact Prod.ext rfl (by omega)
    · have h1 : specStep w (x, y) c = coordStep w (x, y) (some c) := by
        simp [specStep, coordStep, hc]
      have hcnt : new_lines_count (c :: rest) = new_lines_count rest := by
        simp [new_lines_count, List.filter, hc]
      rw [h1, hcnt]
      simpa using ih (coordStep w (x, y) (some c)).1 (coordStep w (x, y) (some c)).2

theorem range_map_get?_eq_take {α : Type u} (l : List α) (p : Nat) (h : p ≤ l.length) :
    (List.range p).map (fun i => l.get? i) = (l.take p).map some := by
  induction p with
  | zero => simp
  | succ q ih =>
    have hq : q ≤ l.length := by omega
    have hlt : q < l.length := by omega
    rw [List.range_succ, List.map_append, ih hq, List.take_succ, List.map_append]
    simp [List.getElem?_eq_getElem hlt]

/-- Claim C4: for every content, wrap width `>= 1` and `p` within the
buffer, `buffer_pos_to_relative_cursor_pos p` equals the reference walk
described by the spec (col incremented per non-newline, reset with a row
increment on newline, and reset with a row increment whenever col reaches
the wrap width); in particular with wrap width 5 and content
"abcdefghij" it returns `(0, 1)` at `p = 5` and `(0, 2)` at `p = 10`. -/
theorem c4_coord_matches_spec_walk (content : List Char) (pos w p : Nat)
    (hw : 1 ≤ w) (hp : p ≤ content.length) :
    (Buffer.buffer_pos_to_relative_cursor_pos
        { buffer := content, buffer_pos := pos, max_line_char := w } p
      = position_to_coord_spec content w p) ∧
    Buffer.buffer_pos_to_relative_cursor_pos
        (Buffer.from_str "abcdefghij".toList 5) 5 = (0, 1) ∧
    Buffer.buffer_pos_to_relative_cursor_pos
        (Buffer.from_str "abcdefghij".toList 5) 10 = (0, 2) := by
  refine ⟨?_, by decide, by decide⟩
  show ((List.range p).map (fun i => content.get? i)).foldl (coordStep w)
      (0, ((content.take p).filter (fun c => c = '\n')).length)
    = (content.take p).foldl (specStep w) (0, 0)
  rw [range_map_get?_eq_take content p hp,
    foldl_specStep_eq_coordStep w hw (content.take p) 0 0]
  have hshift := foldl_coordStep_shift w ((content.take p).map some) 0 0
    (((content.take p).filter (fun c => c = '\n')).length)
  rw [Nat.zero_add] at hshift
  rw [hshift]
  rfl

/-- Witness for claim C4 at wrap width 2 and content `['a', 'b', 'c']`. -/
theorem c4_coord_matches_spec_walk_witness :
    (1 ≤ 2 ∧ 3 ≤ (['a', 'b', 'c'] : List Char).length) ∧
    ((Buffer.buffer_pos_to_relative_cursor_pos
        { buffer := ['a', 'b', 'c'], buffer_pos := 0, max_line_char := 2 } 3
      = position_to_coord_spec ['a', 'b', 'c'] 2 3) ∧
    Buffer.buffer_pos_to_relative_cursor_pos
        (Buffer.from_str "abcdefghij".toList 5) 5 = (0, 1) ∧
    Buffer.buffer_pos_to_relative_cursor_pos
        (Buffer.from_str "abcdefghij".toList 5) 10 = (0, 2)) :=
  ⟨⟨by decide, by decide⟩,
   c4_coord_matches_spec_walk ['a', 'b', 'c'] 0 2 3 (by decide) (by decide)⟩

theorem coordStep_col_lt (max : Nat) (hw : 1 ≤ max) (xy : Nat × Nat) (oc : Option Char)
    (hx : xy.1 < max) : (coordStep max xy oc).1 < max := by
  rcases oc with _ | c
  · simp only [coordStep]
    split
    · simpa using hw
    · next h => simp only; omega
  · by_cases hc : c = '\n'
    · simp only [coordStep, hc, if_true, reduceIte]
      split
      · simpa using hw
      · next h => simp only; omega
    · simp only [coordStep, hc, if_false, reduceIte]
      split
      · simpa using hw
      · next h => simp only; omega

theorem foldl_coordStep_col_lt (max : Nat) (hw : 1 ≤ max) (ocs : List (Option Char))
    (x y : Nat) (hx : x < max) : (ocs.foldl (coordStep max) (x, y)).1 < max := by
  induction ocs generalizing x y with
  | nil => simpa
  | cons oc rest ih =>
    simp only [List.foldl_cons]
    have hnext : (coordStep max (x, y) oc).1 < max := coordStep_col_lt max hw (x, y) oc hx
    simpa using ih (coordStep max (x, y) oc).1 (coordStep max (x, y) oc).2 hnext

/-- Claim C6: for every content, wrap width `>= 1` and `p` within the
buffer, the column computed by `buffer_pos_to_relative_cursor_pos` is
strictly less than the wrap width (and, being a `Nat`, never negative). -/
theorem c6_column_lt_wrap_width (content : List Char) (pos w p : Nat)
    (hw : 1 ≤ w) (_hp : p ≤ content.length) :
    (Buffer.buffer_pos_to_relative_cursor_pos
        { buffer := content, buffer_pos := pos, max_line_char := w } p).1 < w ∧
    0 ≤ (Buffer.buffer_pos_to_relative_cursor_pos
        { buffer := content, buffer_pos := pos, max_line_char := w } p).1 := by
  refine ⟨?_, Nat.zero_le _⟩
  show (((List.range p).map (fun i => content.get? i)).foldl (coordStep w)
      (0, ((content.take p).filter (fun c => c = '\n')).length)).1 < w
  exact foldl_coordStep_col_lt w hw _ 0 _ hw

/-- Witness for claim C6 at wrap width 1, content `['a', '\n']`, `p = 2`. -/
theorem c6_column_lt_wrap_width_witness :
    (1 ≤ 1 ∧ 2 ≤ (['a', '\n'] : List Char).length) ∧
    ((Buffer.buffer_pos_to_relative_cursor_pos
        { buffer := ['a', '\n'], buffer_pos := 0, max_line_char := 1 } 2).1 < 1 ∧
    0 ≤ (Buffer.buffer_pos_to_relative_cursor_pos
        { buffer := ['a', '\n'], buffer_pos := 0, max_line_char := 1 } 2).1) :=
  ⟨⟨by decide, by decide⟩,
   c6_column_lt_wrap_width ['a', '\n'] 0 1 2 (by decide) (by decide)⟩

theorem range_map_get?_beyond {α : Type u} (l : List α) (k : Nat) :
    (List.range (l.length + k)).map (fun i => l.get? i) =
      (List.range l.length).map (fun i => l.get? i) ++ List.replicate k none := by
  induction k with
  | zero => simp
  | succ n ih =>
    have hnone : l.get? (l.length + n) = none := List.get?_eq_none.mpr (by omega)
    rw [show l.length + (n + 1) = (l.length + n) + 1 by omega, List.range_succ,
      List.map_append, ih, List.replicate_succ']
    simp [hnone]

theorem foldl_replicate_iterate {α β : Type u} (f : β → α → β) (a : α) (k : Nat) (z : β) :
    (List.replicate k a).foldl f z = (fun s => f s a)^[k] z := by
  induction k generalizing z with
  | zero => rfl
  | succ n ih =>
    rw [List.replicate_succ, List.foldl_cons, ih, ← Function.iterate_succ_apply]

/-- Claim C8: the coordinate translation is a total function.  At `p = 0`
(in particular on the empty buffer) it returns the degenerate zero pair,
and for any `p` beyond the buffer length it still returns a defined pair:
the value at `len + k` is obtained from the end-of-buffer value by `k`
further `coordStep` iterations on a missing (`none`) character — no input
makes it fail. -/
theorem c8_coord_translation_total (b : Buffer) (k : Nat) :
    Buffer.buffer_pos_to_relative_cursor_pos b 0 = (0, 0) ∧
    Buffer.buffer_pos_to_relative_cursor_pos b (b.buffer.length + k)
      = (fun xy => coordStep b.max_line_char xy none)^[k]
          b.last_buffer_pos_to_relative_cursor_pos := by
  constructor
  · simp [Buffer.buffer_pos_to_relative_cursor_pos]
  · show ((List.range (b.buffer.length + k)).map (fun i => b.buffer.get? i)).foldl
        (coordStep b.max_line_char)
        (0, ((b.buffer.take (b.buffer.length + k)).filter (fun c => c = '\n')).length)
      = _
    have htake : b.buffer.take (b.buffer.length + k) = b.buffer :=
      List.take_of_length_le (by omega)
    have htake2 : b.buffer.take b.buffer.length = b.buffer := List.take_length b.buffer
    rw [htake, range_map_get?_beyond, List.foldl_append,
      foldl_replicate_iterate (coordStep b.max_line_char) none k]
    show _ = (fun xy => coordStep b.max_line_char xy none)^[k]
        (((List.range b.buffer.length).map (fun i => b.buffer.get? i)).foldl
          (coordStep b.max_line_char)
          (0, ((b.buffer.take b.buffer.length).filter (fun c => c = '\n')).length))
    rw [htake2]

/-! ## Multiline output and overflow scrolling -/

theorem length_splitNl (s : List Char) :
    (splitNl s).length = new_lines_count s + 1 := by
  induction s with
  | nil => rfl
  | cons c cs ih =>
    by_cases hc : c = '\n'
    · subst hc
      have hcount : new_lines_count ('\n' :: cs) = new_lines_count cs + 1 := by
        simp [new_lines_count, List.filter]
      rw [show splitNl ('\n' :: cs) = [] :: splitNl cs from by simp [splitNl],
        List.length_cons, ih, hcount]
    · have hcount : new_lines_count (c :: cs) = new_lines_count cs := by
        simp [new_lines_count, List.filter, hc]
      simp only [splitNl, hc, if_false, reduceIte, hcount]
      cases hs : splitNl cs with
      | nil => rw [hs] at ih; simp at ih
      | cons seg segs =>
        rw [hs] at ih
        simp only [List.length_cons] at ih ⊢
        exact ih

theorem print_output_multiline_foldl (segs : List (List Char)) (ws : List (List Char))
    (row : Nat) :
    segs.foldl
        (fun (tr : MultilineTrace) line =>
          { writes := tr.writes ++ [line, '\r' :: '\n' :: []], row := tr.row + 1 })
        { writes := ws, row := row }
      = { writes := ws ++ segs.flatMap (fun l => [l, '\r' :: '\n' :: []]),
          row := row + segs.length } := by
  induction segs generalizing ws row with
  | nil => simp
  | cons seg rest ih =>
    rw [List.foldl_cons, ih, List.flatMap_cons]
    simp only [MultilineTrace.mk.injEq]
    constructor
    · simp
    · simp only [List.length_cons]
      omega

/-- Claim C3, counterexample to the claim as stated: on the string
`"a\nb"` (one embedded newline) the split loop of `print_output`
increments the tracked physical row twice — once per split line — not
once. -/
theorem c3_counterexample :
    is_multiline ('a' :: '\n' :: 'b' :: []) = true ∧
    new_lines_count ('a' :: '\n' :: 'b' :: []) = 1 ∧
    ¬ ((print_output_multiline 0 ('a' :: '\n' :: 'b' :: [])).row = 0 + 1) := by
  decide

/-- Claim C3 (amended): when a drained text item's string contains
embedded newlines, `print_output` splits it on them and writes each split
line followed by an explicit `"\r\n"` line advance, and the tracked
physical row is incremented exactly once per written line — that is,
`k + 1` times for a string with `k` embedded newlines, not `k` times. -/
theorem c3_multiline_row_increments (s : List Char) (row : Nat)
    (_hm : is_multiline s = true) :
    (print_output_multiline row s).writes
        = (splitNl s).flatMap (fun l => [l, '\r' :: '\n' :: []]) ∧
    (print_output_multiline row s).row = row + new_lines_count s + 1 := by
  unfold print_output_multiline
  rw [print_output_multiline_foldl]
  constructor
  · simp
  · simp only
    rw [length_splitNl]
    omega

/-- Witness for the amended claim C3 on the string `"a\nb"`. -/
theorem c3_multiline_row_increments_witness :
    is_multiline ('a' :: '\n' :: 'b' :: []) = true ∧
    ((print_output_multiline 4 ('a' :: '\n' :: 'b' :: [])).writes
        = (splitNl ('a' :: '\n' :: 'b' :: [])).flatMap
            (fun l => [l, '\r' :: '\n' :: []]) ∧
    (print_output_multiline 4 ('a' :: '\n' :: 'b' :: [])).row
        = 4 + new_lines_count ('a' :: '\n' :: 'b' :: []) + 1) :=
  ⟨by decide, c3_multiline_row_increments ('a' :: '\n' :: 'b' :: []) 4 (by decide)⟩

/-- Claim C7: after writing a fragment, when the overflow check detects
that the write crossed the viewport's bottom boundary
(`screen_height_overflow_by_new_lines > 0`), exactly one `scroll_up(1)`
is issued and the tracked physical row is pinned to the last visible row
`height - 1`; when no overflow is detected nothing is scrolled and the
cursor state is unchanged. -/
theorem c7_scroll_if_needed_for_output_behavior (cur : CursorState) (output : List Char) :
    (screen_height_overflow_by_new_lines cur (new_lines_count output) > 0 →
      (scroll_if_needed_for_output cur output).scrolls = [1] ∧
      (scroll_if_needed_for_output cur output).cursor.current_row = cur.height - 1) ∧
    (screen_height_overflow_by_new_lines cur (new_lines_count output) = 0 →
      (scroll_if_needed_for_output cur output).scrolls = [] ∧
      (scroll_if_needed_for_output cur output).cursor = cur) := by
  constructor
  · intro h
    simp [scroll_if_needed_for_output, h]
  · intro h
    simp [scroll_if_needed_for_output, h]

/-- Witness for claim C7: viewport height 10, tracked row 9, one embedded
newline — one scroll of one row is issued and the row is pinned to 9. -/
theorem c7_scroll_if_needed_for_output_behavior_witness :
    screen_height_overflow_by_new_lines { current_row := 9, height := 10 }
      (new_lines_count ('a' :: '\n' :: [])) > 0 ∧
    ((scroll_if_needed_for_output { current_row := 9, height := 10 }
        ('a' :: '\n' :: [])).scrolls = [1] ∧
      (scroll_if_needed_for_output { current_row := 9, height := 10 }
        ('a' :: '\n' :: [])).cursor.current_row = 10 - 1) :=
  ⟨by decide,
   (c7_scroll_if_needed_for_output_behavior { current_row := 9, height := 10 }
     ('a' :: '\n' :: [])).1 (by decide)⟩

/-! ## Split/join lemmas for the batch round trip -/

theorem splitNl_ne_nil (l : List Char) : splitNl l ≠ [] := by
  cases l with
  | nil => simp [splitNl]
  | cons c cs =>
    by_cases hc : c = '\n'
    · simp [splitNl, hc]
    · simp only [splitNl, hc, if_false, reduceIte]
      cases splitNl cs <;> simp

theorem joinNl_cons_head (c : Char) (s0 : List Char) (ss : List (List Char)) :
    joinNl ((c :: s0) :: ss) = c :: joinNl (s0 :: ss) := by
  cases ss <;> rfl

theorem joinNl_nil_cons (r : List (List Char)) (hr : r ≠ []) :
    joinNl ([] :: r) = '\n' :: joinNl r := by
  cases r with
  | nil => exact absurd rfl hr
  | cons a as => rfl

theorem joinNl_splitNl (l : List Char) : joinNl (splitNl l) = l := by
  induction l with
  | nil => rfl
  | cons c cs ih =>
    by_cases hc : c = '\n'
    · subst hc
      rw [show splitNl ('\n' :: cs) = [] :: splitNl cs from by simp [splitNl],
        joinNl_nil_cons (splitNl cs) (splitNl_ne_nil cs), ih]
    · simp only [splitNl, hc, if_false, reduceIte]
      cases hs : splitNl cs with
      | nil => exact absurd hs (splitNl_ne_nil cs)
      | cons s0 ss =>
        rw [joinNl_cons_head, ← hs, ih]

theorem splitNl_eq_singleton_nil (l : List Char) (h : splitNl l = [[]]) : l = [] := by
  have := joinNl_splitNl l
  rw [h] at this
  exact this.symm

theorem getLast?_cons_of_ne_nil {α : Type u} (a : α) (l : List α) (h : l ≠ []) :
    (a :: l).getLast? = l.getLast? := by
  cases l with
  | nil => exact absurd rfl h
  | cons b bs => exact List.getLast?_cons_cons

theorem endsWithNl_cons (c : Char) (cs : List Char) (h : cs ≠ []) :
    endsWithNl (c :: cs) = endsWithNl cs := by
  unfold endsWithNl
  rw [getLast?_cons_of_ne_nil c cs h]

theorem splitNl_getLast?_eq_nil_iff (l : List Char) :
    (splitNl l).getLast? = some [] ↔ (l = [] ∨ endsWithNl l = true) := by
  induction l with
  | nil => simp [splitNl]
  | cons c cs ih =>
    by_cases hc : c = '\n'
    · subst hc
      rw [show splitNl ('\n' :: cs) = [] :: splitNl cs from by simp [splitNl]]
      rw [getLast?_cons_of_ne_nil [] (splitNl cs) (splitNl_ne_nil cs)]
      cases hcs : cs with
      | nil =>
        simp [splitNl, endsWithNl]
      | cons d ds =>
        rw [← hcs, endsWithNl_cons '\n' cs (by rw [hcs]; simp), ih]
        constructor
        · rintro (h1 | h2)
          · subst h1; simp at hcs
          · exact Or.inr h2
        · rintro (h1 | h2)
          · simp at h1
          · exact Or.inr h2
    · simp only [splitNl, hc, if_false, reduceIte]
      cases hs : splitNl cs with
      | nil => exact absurd hs (splitNl_ne_nil cs)
      | cons s0 ss =>
        cases hss : ss with
        | nil =>
          subst hss
          simp only [List.getLast?_singleton, Option.some.injEq]
          constructor
          · intro h1
            simp at h1
          · rintro (h1 | h2)
            · simp at h1
            · -- `endsWithNl (c :: cs) = true` with a single split segment
              -- forces `cs = []` (no newline in `cs`), contradicting `c ≠ '\n'`.
              exfalso
              cases hcs : cs with
              | nil =>
                subst hcs
                simp [endsWithNl, hc] at h2
              | cons d ds =>
                have hcsne : cs ≠ [] := by rw [hcs]; simp
                rw [endsWithNl_cons c cs hcsne] at h2
                have hlast : (splitNl cs).getLast? = some [] := (ih).mpr (Or.inr h2)
                rw [hs] at hlast
                simp only [List.getLast?_singleton, Option.some.injEq] at hlast
                subst hlast
                exact absurd (splitNl_eq_singleton_nil cs hs) hcsne
        | cons t ts =>
          subst hss
          rw [getLast?_cons_of_ne_nil (c :: s0) (t :: ts) (by simp),
            ← getLast?_cons_of_ne_nil s0 (t :: ts) (by simp), ← hs, ih]
          have hcsne : cs ≠ [] := by
            intro h0
            rw [h0] at hs
            simp [splitNl] at hs
          rw [endsWithNl_cons c cs hcsne]
          constructor
          · rintro (h1 | h2)
            · exact absurd h1 hcsne
            · exact Or.inr h2
          · rintro (h1 | h2)
            · simp at h1
            · exact Or.inr h2

theorem mem_splitNl_no_cr (l : List Char) (hl : '\r' ∉ l) :
    ∀ seg ∈ splitNl l, '\r' ∉ seg := by
  induction l with
  | nil =>
    intro seg hseg
    simp [splitNl] at hseg
    simp [hseg]
  | cons c cs ih =>
    have hc1 : ¬ ('\r' = c) := by intro h0; exact hl (by rw [← h0]; simp)
    have hc2 : '\r' ∉ cs := fun h0 => hl (by simp [h0])
    intro seg hseg
    by_cases hcn : c = '\n'
    · rw [show splitNl (c :: cs) = [] :: splitNl cs from by simp [splitNl, hcn]] at hseg
      rcases List.mem_cons.mp hseg with h1 | h2
      · simp [h1]
      · exact ih hc2 seg h2
    · simp only [splitNl, hcn, if_false, reduceIte] at hseg
      cases hs : splitNl cs with
      | nil => exact absurd hs (splitNl_ne_nil cs)
      | cons s0 ss =>
        rw [hs] at hseg
        rcases List.mem_cons.mp hseg with h1 | h2
        · subst h1
          intro hmem
          rcases List.mem_cons.mp hmem with h3 | h4
          · exact hc1 h3
          · exact ih hc2 s0 (by rw [hs]; simp) h4
        · exact ih hc2 seg (by rw [hs]; simp [h2])

theorem stripCr_eq_self (seg : List Char) (h : '\r' ∉ seg) : stripCr seg = seg := by
  unfold stripCr
  rw [if_neg]
  intro hh
  obtain ⟨hne, heq⟩ := List.mem_getLast?_eq_getLast (x := '\r') hh
  exact h (heq ▸ List.getLast_mem hne)

theorem stripInit_eq_self (ss : List (List Char))
    (h : ∀ seg ∈ ss, stripCr seg = seg) : stripInit ss = ss := by
  induction ss with
  | nil => rfl
  | cons a as ih =>
    cases as with
    | nil => rfl
    | cons b bs =>
      show stripCr a :: stripInit (b :: bs) = a :: b :: bs
      rw [h a (by simp), ih (fun seg hseg => h seg (by simp at hseg ⊢; tauto))]

theorem rustLines_no_cr (s : List Char) (h : '\r' ∉ s) :
    rustLines s =
      if (splitNl s).getLast? = some [] then (splitNl s).dropLast else splitNl s := by
  unfold rustLines
  rw [stripInit_eq_self (splitNl s)
    (fun seg hseg => stripCr_eq_self seg (mem_splitNl_no_cr s h seg hseg))]

theorem filterMap_fromStringItem (a : List Char) :
    (fromStringItem a).filterMap printedText = [a] := rfl

theorem flatMap_fromStringItem_ne_nil (ll : List (List Char)) (h : ll ≠ []) :
    ll.flatMap fromStringItem ≠ [] := by
  cases ll with
  | nil => exact absurd rfl h
  | cons a as => simp [List.flatMap_cons, fromStringItem]

theorem filterMap_flatMap_items (ll : List (List Char)) :
    (ll.flatMap fromStringItem).filterMap printedText = ll := by
  induction ll with
  | nil => rfl
  | cons a as ih =>
    rw [List.flatMap_cons, List.filterMap_append, filterMap_fromStringItem, ih]
    rfl

theorem filterMap_dropLast_flatMap_items (ll : List (List Char)) (h : ll ≠ []) :
    ((ll.flatMap fromStringItem).dropLast).filterMap printedText = ll := by
  induction ll with
  | nil => exact absurd rfl h
  | cons a as ih =>
    cases as with
    | nil => rfl
    | cons b bs =>
      rw [List.flatMap_cons,
        List.dropLast_append_of_ne_nil (fromStringItem a)
          (flatMap_fromStringItem_ne_nil (b :: bs) (by simp)),
        List.filterMap_append, filterMap_fromStringItem, ih (by simp)]
      rfl

/-- Claim C5, counterexample to the claim as stated: the claim quantifies
over every raw string, but `str::lines` also treats `"\r\n"` as a line
boundary and strips the carriage return, so for `"a\r\nb"` — which does
not end in a newline — the reconstruction yields `"a\nb"`, not the
original string. -/
theorem c5_counterexample :
    endsWithNl ('a' :: '\r' :: '\n' :: 'b' :: []) = false ∧
    reconstruct (Printer.from_string ('a' :: '\r' :: '\n' :: 'b' :: []))
      ≠ ('a' :: '\r' :: '\n' :: 'b' :: []) := by
  decide

/-- Claim C5 (amended): for every raw string containing no carriage
return, joining the non-`NewLine` items of `from_string`'s batch with a
newline reproduces the original string exactly when it does not end with
a newline, and reproduces the original with its one trailing empty
segment dropped when it does. -/
theorem c5_from_string_round_trip (s : List Char) (hcr : '\r' ∉ s) :
    (endsWithNl s = false → reconstruct (Printer.from_string s) = s) ∧
    (endsWithNl s = true →
      reconstruct (Printer.from_string s) = joinNl ((splitNl s).dropLast)) := by
  constructor
  · intro hend
    by_cases hnil : s = []
    · subst hnil
      rfl
    · have hlast : ¬ ((splitNl s).getLast? = some []) := by
        rw [splitNl_getLast?_eq_nil_iff]
        push_neg
        exact ⟨hnil, by simp [hend]⟩
      have hrl : rustLines s = splitNl s := by
        rw [rustLines_no_cr s hcr, if_neg hlast]
      have hfs : Printer.from_string s
          = Printer.pop { items := (rustLines s).flatMap fromStringItem } := by
        unfold Printer.from_string
        rw [hend]
        rfl
      rw [hfs, hrl]
      show joinNl ((((splitNl s).flatMap fromStringItem).dropLast).filterMap printedText)
        = s
      rw [filterMap_dropLast_flatMap_items (splitNl s) (splitNl_ne_nil s), joinNl_splitNl]
  · intro hend
    have hlast : (splitNl s).getLast? = some [] :=
      (splitNl_getLast?_eq_nil_iff s).mpr (Or.inr hend)
    have hrl : rustLines s = (splitNl s).dropLast := by
      rw [rustLines_no_cr s hcr, if_pos hlast]
    have hfs : Printer.from_string s
        = { items := (rustLines s).flatMap fromStringItem } := by
      unfold Printer.from_string
      rw [hend]
      rfl
    rw [hfs, hrl]
    show joinNl ((((splitNl s).dropLast).flatMap fromStringItem).filterMap printedText)
      = joinNl ((splitNl s).dropLast)
    rw [filterMap_flatMap_items]

/-- Witness for the amended claim C5 on the strings `"x\ny"` (no trailing
newline) and `"x\n"` (trailing newline). -/
theorem c5_from_string_round_trip_witness :
    ('\r' ∉ ('x' :: '\n' :: 'y' :: []) ∧ '\r' ∉ ('x' :: '\n' :: [])) ∧
    ((endsWithNl ('x' :: '\n' :: 'y' :: []) = false →
        reconstruct (Printer.from_string ('x' :: '\n' :: 'y' :: []))
          = ('x' :: '\n' :: 'y' :: [])) ∧
      (endsWithNl ('x' :: '\n' :: []) = true →
        reconstruct (Printer.from_string ('x' :: '\n' :: []))
          = joinNl ((splitNl ('x' :: '\n' :: [])).dropLast))) :=
  ⟨⟨by decide, by decide⟩,
   (c5_from_string_round_trip ('x' :: '\n' :: 'y' :: []) (by decide)).1,
   (c5_from_string_round_trip ('x' :: '\n' :: []) (by decide)).2⟩
